import Mathlib

/-!
# Verification of the concept-map generator core
Shallow embedding of `src/services/concept-map-generator.ts`:
the tree model, the builder (`buildTreeFromApi`), the subtree sizer
(`calcHeight`), the layout engine (`layoutFromTree`) and the expansion
mutator (`addExpansionsToTree`), with theorems settling the spec claims.
Pixel coordinates are modelled as rationals.
-/

namespace ConceptMap

/-- `tipo` field of `TreeNode`: 'main' | 'concept' | 'subconcept' | 'example' | 'expanded'. -/
inductive Tipo where
  | main | concept | subconcept | example | expanded
  deriving DecidableEq, Repr

/-- `TreeNode` from the source (recursive, so an inductive rather than a structure):
`id`, `nombre`, optional `descripcion`, optional `relacion`, `tipo`,
`hijos` (ordered children) and optional `color`. -/
inductive TreeNode where
  | mk (id : String) (nombre : String) (descripcion : Option String)
      (relacion : Option String) (tipo : Tipo) (hijos : List TreeNode)
      (color : Option String)
  deriving Repr

def TreeNode.id : TreeNode → String
  | .mk i _ _ _ _ _ _ => i

def TreeNode.nombre : TreeNode → String
  | .mk _ n _ _ _ _ _ => n

def TreeNode.descripcion : TreeNode → Option String
  | .mk _ _ d _ _ _ _ => d

def TreeNode.relacion : TreeNode → Option String
  | .mk _ _ _ r _ _ _ => r

def TreeNode.tipo : TreeNode → Tipo
  | .mk _ _ _ _ t _ _ => t

def TreeNode.hijos : TreeNode → List TreeNode
  | .mk _ _ _ _ _ h _ => h

def TreeNode.color : TreeNode → Option String
  | .mk _ _ _ _ _ _ c => c

/-- `profundidad`: 'basico' | 'intermedio' | 'avanzado'. -/
inductive Profundidad where
  | basico | intermedio | avanzado
  deriving DecidableEq, Repr

/-- `ConceptTree`: `tema`, `profundidad` and the root node `raiz`. -/
structure ConceptTree where
  tema : String
  profundidad : Profundidad
  raiz : TreeNode
  deriving Repr

-- Layout constants from the source.
def LEVEL_X_GAP : ℚ := 320
def NODE_HEIGHT : ℚ := 140
def NODE_VERTICAL_GAP : ℚ := 45
def BRANCH_GAP_MULTIPLIER : ℚ := 5/2
def START_X : ℚ := 50

def BRANCH_COLORS : List String :=
  ["#c0392b", "#2980b9", "#27ae60", "#8e44ad", "#d35400",
   "#16a085", "#c71585", "#00838f", "#558b2f", "#e65100"]

/-! ## Subtree sizer: `calcHeight` (source lines 174-181)

`calcHeight(node)` returns `NODE_HEIGHT` for a leaf, and otherwise
`max(NODE_HEIGHT, sum of children heights + (childCount - 1) * NODE_VERTICAL_GAP)`.
`sumHeights` is the `reduce` over the children. -/

mutual

def calcHeight : TreeNode → ℚ
  | .mk _ _ _ _ _ hijos _ =>
    if hijos.length = 0 then NODE_HEIGHT
    else max NODE_HEIGHT (sumHeights hijos + ((hijos.length : ℚ) - 1) * NODE_VERTICAL_GAP)

def sumHeights : List TreeNode → ℚ
  | [] => 0
  | c :: cs => calcHeight c + sumHeights cs

end

lemma calcHeight_def (n : TreeNode) :
    calcHeight n = if n.hijos.length = 0 then NODE_HEIGHT
      else max NODE_HEIGHT (sumHeights n.hijos + ((n.hijos.length : ℚ) - 1) * NODE_VERTICAL_GAP) := by
  cases n; rfl

lemma NODE_HEIGHT_pos : (0 : ℚ) < NODE_HEIGHT := by norm_num [NODE_HEIGHT]

/-- Every subtree extent is at least `NODE_HEIGHT`. -/
lemma NODE_HEIGHT_le_calcHeight (n : TreeNode) : NODE_HEIGHT ≤ calcHeight n := by
  rw [calcHeight_def]
  split
  · exact le_refl _
  · exact le_max_left _ _

lemma calcHeight_pos (n : TreeNode) : 0 < calcHeight n :=
  lt_of_lt_of_le NODE_HEIGHT_pos (NODE_HEIGHT_le_calcHeight n)

lemma sumHeights_eq_sum (l : List TreeNode) : sumHeights l = (l.map calcHeight).sum := by
  induction l with
  | nil => simp [sumHeights]
  | cons c cs ih => simp [sumHeights, ih]

/-! ## Tree builder: `buildTreeFromApi` (source lines 103-163) -/

/-- `ApiConcepto.subconceptos` entries. -/
structure ApiSubconcepto where
  nombre : String
  descripcion : Option String
  ejemplos : Option (List String)

/-- Input records from the generation API. -/
structure ApiConcepto where
  nombre : String
  descripcion : Option String
  relacion : Option String
  subconceptos : Option (List ApiSubconcepto)

/-- JavaScript `a || d` on an optional string: `d` when absent or empty. -/
def jsOr (s : Option String) (d : String) : String :=
  match s with
  | none => d
  | some v => if v = "" then d else v

def mkExampleNode (conceptIndex subIndex : Nat) (color : String) (ejIndex : Nat)
    (ejemplo : String) : TreeNode :=
  .mk ("ex-" ++ toString conceptIndex ++ "-" ++ toString subIndex ++ "-" ++ toString ejIndex)
    ejemplo none (some "ejemplo") .example [] (some color)

def mkSubNode (profundidad : Profundidad) (conceptIndex : Nat) (color : String)
    (subIndex : Nat) (sub : ApiSubconcepto) : TreeNode :=
  .mk ("sub-" ++ toString conceptIndex ++ "-" ++ toString subIndex)
    sub.nombre sub.descripcion (some "incluye") .subconcept
    (match profundidad, sub.ejemplos with
     | .avanzado, some ejs => ejs.mapIdx (mkExampleNode conceptIndex subIndex color)
     | _, _ => [])
    (some color)

def mkConceptNode (profundidad : Profundidad) (conceptIndex : Nat)
    (concepto : ApiConcepto) : TreeNode :=
  let color := BRANCH_COLORS.getD (conceptIndex % BRANCH_COLORS.length) ""
  .mk ("concept-" ++ toString conceptIndex)
    concepto.nombre concepto.descripcion (some (jsOr concepto.relacion "tiene")) .concept
    (match profundidad, concepto.subconceptos with
     | .basico, _ => []
     | _, none => []
     | _, some subs => subs.mapIdx (mkSubNode profundidad conceptIndex color))
    (some color)

/-- The builder: root node with id "main" and one `concept` child per entry;
no input validation is performed anywhere in the source. -/
def buildTreeFromApi (tema : String) (profundidad : Profundidad)
    (conceptos : List ApiConcepto) : ConceptTree :=
  { tema := tema, profundidad := profundidad,
    raiz := .mk "main" tema none none .main
      (conceptos.mapIdx (mkConceptNode profundidad)) (some "#6366f1") }

/-! ## Layout engine: `layoutFromTree` (source lines 169-308) -/

/-- A placed node (`Node<ConceptNodeData>` from the output array). -/
structure PNode where
  id : String
  type : String
  x : ℚ
  y : ℚ
  label : String
  nodeType : Tipo
  description : Option String
  color : Option String
  deriving Repr

/-- An emitted connector (`Edge` from the output array). -/
structure PEdge where
  id : String
  source : String
  target : String
  type : String
  stroke : String
  strokeWidth : ℚ
  deriving Repr

/-- `data.nodeType`: `child.tipo === 'expanded' ? 'example' : child.tipo`. -/
def displayTipo : Tipo → Tipo
  | .expanded => .example
  | t => t

/-- Stacking loop shared by the branch loop (lines 190-197, gap
`NODE_VERTICAL_GAP * BRANCH_GAP_MULTIPLIER`) and the children loop
(lines 235-268, gap `NODE_VERTICAL_GAP`): assigns each node its `startY`
and advances the running position by the node's extent plus the gap. -/
def stackStarts (gap : ℚ) : List TreeNode → ℚ → List (TreeNode × ℚ)
  | [], _ => []
  | c :: cs, y => (c, y) :: stackStarts gap cs (y + calcHeight c + gap)

mutual

/-- `createNodesRecursive` (source lines 216-269): places the children of
`node` at `x = START_X + level * LEVEL_X_GAP`, stacked from
`startY + (availableHeight - totalChildrenHeight) / 2`. -/
def createNodesRecursive : TreeNode → String → Nat → ℚ → ℚ → List PNode × List PEdge
  | .mk _ _ _ _ _ hijos _, parentId, level, startY, availableHeight =>
    if hijos.length = 0 then ([], [])
    else
      let totalChildrenHeight :=
        sumHeights hijos + ((hijos.length : ℚ) - 1) * NODE_VERTICAL_GAP
      let childY := startY + (availableHeight - totalChildrenHeight) / 2
      emitChildren hijos parentId level childY

/-- The `node.hijos.forEach` loop body: emit the child node and its edge,
recurse into the child with `(childY, childHeight)`, then advance
`childY` by `childHeight + NODE_VERTICAL_GAP`. -/
def emitChildren : List TreeNode → String → Nat → ℚ → List PNode × List PEdge
  | [], _, _, _ => ([], [])
  | child :: rest, parentId, level, childY =>
    let h := calcHeight child
    let pn : PNode :=
      { id := child.id, type := "concept",
        x := START_X + (level : ℚ) * LEVEL_X_GAP, y := childY + h / 2,
        label := child.nombre, nodeType := displayTipo child.tipo,
        description := child.descripcion, color := child.color }
    let pe : PEdge :=
      { id := "edge-" ++ parentId ++ "-" ++ child.id, source := parentId,
        target := child.id, type := "smoothstep", stroke := "#94a3b8",
        strokeWidth := 2 }
    let sub := createNodesRecursive child child.id (level + 1) childY h
    let rest' := emitChildren rest parentId level (childY + h + NODE_VERTICAL_GAP)
    (pn :: sub.1 ++ rest'.1, pe :: sub.2 ++ rest'.2)

end

/-- The `tree.raiz.hijos.forEach` loop (source lines 272-305): per branch,
emit the concept node at `(START_X + LEVEL_X_GAP, centerY)`, the edge from
the root, and the branch subtree via `createNodesRecursive` at level 2. -/
def layoutBranches (raizId : String) : List (TreeNode × ℚ) → List PNode × List PEdge
  | [] => ([], [])
  | (b, startY) :: rest =>
    let h := calcHeight b
    let pn : PNode :=
      { id := b.id, type := "concept", x := START_X + LEVEL_X_GAP,
        y := startY + h / 2, label := b.nombre, nodeType := .concept,
        description := b.descripcion, color := b.color }
    let pe : PEdge :=
      { id := "edge-main-" ++ b.id, source := raizId, target := b.id,
        type := "smoothstep", stroke := "#94a3b8", strokeWidth := 5/2 }
    let sub := createNodesRecursive b b.id 2 startY h
    let rest' := layoutBranches raizId rest
    (pn :: sub.1 ++ rest'.1, pe :: sub.2 ++ rest'.2)

/-- `layoutFromTree` (source lines 169-308): computes branch positions
(`branchYPositions`), the map center, pushes the root node, then lays out
every branch. Final `currentY` is `sum of branch heights + count * gap`,
and `totalHeight` subtracts one trailing gap. -/
def layoutFromTree (tree : ConceptTree) : List PNode × List PEdge :=
  let branchGap := NODE_VERTICAL_GAP * BRANCH_GAP_MULTIPLIER
  let branches := stackStarts branchGap tree.raiz.hijos 0
  let totalHeight :=
    sumHeights tree.raiz.hijos + (tree.raiz.hijos.length : ℚ) * branchGap - branchGap
  let mapCenterY := totalHeight / 2
  let rootNode : PNode :=
    { id := tree.raiz.id, type := "concept", x := START_X, y := mapCenterY,
      label := tree.raiz.nombre, nodeType := .main, description := none,
      color := some (jsOr tree.raiz.color "#6366f1") }
  let rest := layoutBranches tree.raiz.id branches
  (rootNode :: rest.1, rest.2)

/-! ## Expansion mutator: `addExpansionsToTree` (source lines 314-353)

The source deep-clones the tree (`JSON.parse(JSON.stringify(tree))`), then
for each expansion entry finds the first node (pre-order) whose `nombre`
equals `conceptoOriginal` and pushes one `expanded` child per detail onto
that node.  Pushing through the found pointer is embedded as replacing the
first pre-order match (`expandFirst`).  `Date.now()` is passed in as `now`. -/

structure SubDetalle where
  nombre : String
  descripcion : String

structure Expansion where
  conceptoOriginal : String
  subDetalles : List SubDetalle

mutual

/-- `findNodeByName` (source lines 325-332): pre-order first match. -/
def findNodeByName : TreeNode → String → Option TreeNode
  | n@(.mk _ nom _ _ _ hijos _), nombre =>
    if nom = nombre then some n else findInChildren hijos nombre

/-- The `for (const child of node.hijos)` loop of `findNodeByName`. -/
def findInChildren : List TreeNode → String → Option TreeNode
  | [], _ => none
  | c :: cs, nombre =>
    match findNodeByName c nombre with
    | some found => some found
    | none => findInChildren cs nombre

end

/-- One pushed expansion child (source lines 339-347). -/
def mkExpandedNode (parentId : String) (color : Option String)
    (expIdx now : Nat) (idx : Nat) (detalle : SubDetalle) : TreeNode :=
  .mk ("expanded-" ++ parentId ++ "-" ++ toString expIdx ++ "-" ++ toString idx
        ++ "-" ++ toString now)
    detalle.nombre (some detalle.descripcion) (some "incluye") .expanded [] color

/-- The `expansion.subDetalles.forEach` pushes, applied to the found node. -/
def pushDetails (expIdx now : Nat) (e : Expansion) (n : TreeNode) : TreeNode :=
  .mk n.id n.nombre n.descripcion n.relacion n.tipo
    (n.hijos ++ e.subDetalles.mapIdx (mkExpandedNode n.id n.color expIdx now))
    n.color

mutual

/-- Mutating the node found by the pre-order search, expressed purely:
apply `f` to the first pre-order node named `nombre`; the Boolean reports
whether a match was found. -/
def expandFirst (nombre : String) (f : TreeNode → TreeNode) :
    TreeNode → TreeNode × Bool
  | n@(.mk i nom d r t hijos c) =>
    if nom = nombre then (f n, true)
    else
      let res := expandFirstChildren nombre f hijos
      (.mk i nom d r t res.1 c, res.2)

def expandFirstChildren (nombre : String) (f : TreeNode → TreeNode) :
    List TreeNode → List TreeNode × Bool
  | [] => ([], false)
  | c :: cs =>
    let rc := expandFirst nombre f c
    if rc.2 then (rc.1 :: cs, true)
    else
      let rcs := expandFirstChildren nombre f cs
      (c :: rcs.1, rcs.2)

end

/-- The `expansions.forEach` loop (source lines 335-350): find the target
in the current tree; if present, push the details onto it. -/
def applyExpansions (now : Nat) : Nat → TreeNode → List Expansion → TreeNode
  | _, raiz, [] => raiz
  | expIdx, raiz, e :: rest =>
    let raiz' :=
      match findNodeByName raiz e.conceptoOriginal with
      | none => raiz
      | some _ => (expandFirst e.conceptoOriginal (pushDetails expIdx now e) raiz).1
    applyExpansions now (expIdx + 1) raiz' rest

mutual

/-- The structural copy performed by `JSON.parse(JSON.stringify(tree))`. -/
def deepCopyNode : TreeNode → TreeNode
  | .mk i n d r t hijos c => .mk i n d r t (deepCopyChildren hijos) c

def deepCopyChildren : List TreeNode → List TreeNode
  | [] => []
  | x :: xs => deepCopyNode x :: deepCopyChildren xs

end

/-- `addExpansionsToTree` (source lines 314-353). -/
def addExpansionsToTree (now : Nat) (tree : ConceptTree)
    (expansions : List Expansion) : ConceptTree :=
  let newRaiz := deepCopyNode tree.raiz
  { tema := tree.tema, profundidad := tree.profundidad,
    raiz := applyExpansions now 0 newRaiz expansions }

/-! ## Heap model of the mutator (for the frame property)

The frame claim is about JavaScript aliasing: the caller still holds a
reference to the input tree while `addExpansionsToTree` mutates.  To
state it, the mutator is embedded a second time over an explicit heap:
nodes live in an address-indexed store (`Heap`, address = list index,
allocation = append), `JSON.parse(JSON.stringify(tree))` becomes
`cloneNode` (fresh allocations only), `findNodeByName` becomes
`findAddrByName` (pre-order over addresses), and `hijos.push(...)`
becomes an in-place `List.set` at the found address plus an allocation.
`readNode` reads the pure tree a caller observes from an address. -/

/-- A heap-resident node: same fields as `TreeNode`, children as
addresses. -/
structure HNode where
  id : String
  nombre : String
  descripcion : Option String
  relacion : Option String
  tipo : Tipo
  hijos : List Nat
  color : Option String
  deriving DecidableEq, Repr

abbrev Heap := List HNode

mutual

/-- Dereference an address into the pure tree the caller observes. -/
def readNode : Nat → Heap → Nat → Option TreeNode
  | 0, _, _ => none
  | fuel + 1, h, a =>
    match h[a]? with
    | none => none
    | some hn =>
      match readList fuel h hn.hijos with
      | none => none
      | some ts =>
        some (.mk hn.id hn.nombre hn.descripcion hn.relacion hn.tipo ts hn.color)

def readList : Nat → Heap → List Nat → Option (List TreeNode)
  | 0, _, _ => none
  | _ + 1, _, [] => some []
  | fuel + 1, h, a :: as =>
    match readNode fuel h a, readList fuel h as with
    | some t, some ts => some (t :: ts)
    | _, _ => none

end

mutual

/-- The deep copy: clone the children, then allocate the copied node. -/
def cloneNode : Nat → Heap → Nat → Option (Heap × Nat)
  | 0, _, _ => none
  | fuel + 1, h, a =>
    match h[a]? with
    | none => none
    | some hn =>
      match cloneList fuel h hn.hijos with
      | none => none
      | some (h1, as1) => some (h1 ++ [{ hn with hijos := as1 }], h1.length)

def cloneList : Nat → Heap → List Nat → Option (Heap × List Nat)
  | 0, _, _ => none
  | _ + 1, h, [] => some (h, [])
  | fuel + 1, h, a :: as =>
    match cloneNode fuel h a with
    | none => none
    | some (h1, a1) =>
      match cloneList fuel h1 as with
      | none => none
      | some (h2, as2) => some (h2, a1 :: as2)

end

mutual

/-- `findNodeByName` over the heap: pre-order, returning the address. -/
def findAddrByName : Nat → Heap → Nat → String → Option Nat
  | 0, _, _, _ => none
  | fuel + 1, h, a, nombre =>
    match h[a]? with
    | none => none
    | some hn =>
      if hn.nombre = nombre then some a else findAddrList fuel h hn.hijos nombre

def findAddrList : Nat → Heap → List Nat → String → Option Nat
  | 0, _, _, _ => none
  | _ + 1, _, [], _ => none
  | fuel + 1, h, a :: as, nombre =>
    match findAddrByName fuel h a nombre with
    | some r => some r
    | none => findAddrList fuel h as nombre

end

/-- The pushed expansion child as a heap node (source lines 339-347). -/
def expChild (now expIdx idx : Nat) (hn : HNode) (d : SubDetalle) : HNode :=
  { id := "expanded-" ++ hn.id ++ "-" ++ toString expIdx ++ "-" ++ toString idx
      ++ "-" ++ toString now,
    nombre := d.nombre, descripcion := some d.descripcion,
    relacion := some "incluye", tipo := .expanded, hijos := [],
    color := hn.color }

/-- `parentNode.hijos.push({...})`, one detail at a time: allocate the
new child at the top of the heap and append its address to the parent's
`hijos` in place. -/
def heapAddDetails (now expIdx a : Nat) : Heap → Nat → List SubDetalle → Heap
  | h, _, [] => h
  | h, idx, d :: ds =>
    match h[a]? with
    | none => h
    | some hn =>
      heapAddDetails now expIdx a
        ((h.set a { hn with hijos := hn.hijos ++ [h.length] })
          ++ [expChild now expIdx idx hn d]) (idx + 1) ds

/-- The `expansions.forEach` over the heap. -/
def heapApplyExpansions (fuel now root : Nat) : Heap → Nat → List Expansion → Heap
  | h, _, [] => h
  | h, expIdx, e :: rest =>
    let h1 :=
      match findAddrByName fuel h root e.conceptoOriginal with
      | none => h
      | some a => heapAddDetails now expIdx a h 0 e.subDetalles
    heapApplyExpansions fuel now root h1 (expIdx + 1) rest

/-- `addExpansionsToTree` over the heap: deep-clone the tree rooted at
`root`, then mutate only the clone; returns the new heap and the copied
root's address. -/
def heapAddExpansionsToTree (fuel now : Nat) (h : Heap) (root : Nat)
    (es : List Expansion) : Option (Heap × Nat) :=
  match cloneNode fuel h root with
  | none => none
  | some (h1, r1) => some (heapApplyExpansions fuel now r1 h1 0 es, r1)

/-- Every child pointer stored in the heap is a valid address. -/
def HeapWellFormed (h : Heap) : Prop :=
  ∀ hn ∈ h, ∀ b ∈ hn.hijos, b < h.length

/-- Every node stored at an address `≥ n0` only points at addresses
`≥ n0` (the freshly allocated region is closed). -/
def ClosedFrom (h : Heap) (n0 : Nat) : Prop :=
  ∀ i hn, n0 ≤ i → h[i]? = some hn → ∀ b ∈ hn.hijos, n0 ≤ b

/-! ## Frame lemmas for the heap model -/

mutual

/-- Cloning only allocates: the input heap is a prefix of the output,
the fresh region stays closed, and the returned address is fresh. -/
theorem cloneNode_spec : ∀ (fuel : Nat) (h : Heap) (a n0 : Nat) (h1 : Heap) (a1 : Nat),
    cloneNode fuel h a = some (h1, a1) → n0 ≤ h.length → ClosedFrom h n0 →
    (∃ ext, h1 = h ++ ext) ∧ ClosedFrom h1 n0 ∧ n0 ≤ a1
  | 0, h, a, n0, h1, a1 => by intro hcall _ _; simp [cloneNode] at hcall
  | fuel + 1, h, a, n0, h1, a1 => by
    intro hcall hlen hcf
    rw [cloneNode] at hcall
    cases hh : h[a]? with
    | none => rw [hh] at hcall; simp at hcall
    | some hn =>
      rw [hh] at hcall
      dsimp only at hcall
      cases hcl : cloneList fuel h hn.hijos with
      | none => rw [hcl] at hcall; simp at hcall
      | some p =>
        obtain ⟨hx, asx⟩ := p
        rw [hcl] at hcall
        dsimp only at hcall
        simp only [Option.some.injEq, Prod.mk.injEq] at hcall
        obtain ⟨hh1, ha1⟩ := hcall
        obtain ⟨⟨ext, hext⟩, hcf2, hbs⟩ :=
          cloneList_spec fuel h hn.hijos n0 hx asx hcl hlen hcf
        have hxlen : n0 ≤ hx.length := by
          rw [hext]; simp; omega
        refine ⟨⟨ext ++ [{ hn with hijos := asx }], by rw [← hh1, hext, List.append_assoc]⟩,
          ?_, by omega⟩
        intro i k hi hk b hb
        subst hh1
        rcases lt_trichotomy i hx.length with hlt | heq | hgt
        · rw [List.getElem?_append_left hlt] at hk
          exact hcf2 i k hi hk b hb
        · subst heq
          rw [List.getElem?_concat_length] at hk
          injection hk with hk
          subst hk
          exact hbs b hb
        · rw [List.getElem?_eq_none (by simp; omega)] at hk
          exact absurd hk (by simp)

theorem cloneList_spec : ∀ (fuel : Nat) (h : Heap) (as : List Nat) (n0 : Nat)
      (h2 : Heap) (as2 : List Nat),
    cloneList fuel h as = some (h2, as2) → n0 ≤ h.length → ClosedFrom h n0 →
    (∃ ext, h2 = h ++ ext) ∧ ClosedFrom h2 n0 ∧ (∀ b ∈ as2, n0 ≤ b)
  | 0, h, as, n0, h2, as2 => by intro hcall _ _; simp [cloneList] at hcall
  | fuel + 1, h, [], n0, h2, as2 => by
    intro hcall hlen hcf
    rw [cloneList] at hcall
    simp only [Option.some.injEq, Prod.mk.injEq] at hcall
    obtain ⟨hh2, has2⟩ := hcall
    subst hh2
    refine ⟨⟨[], by simp⟩, hcf, ?_⟩
    rw [← has2]
    intro b hb
    exact absurd hb (List.not_mem_nil b)
  | fuel + 1, h, a :: as, n0, h2, as2 => by
    intro hcall hlen hcf
    rw [cloneList] at hcall
    cases hcn : cloneNode fuel h a with
    | none => rw [hcn] at hcall; simp at hcall
    | some p =>
      obtain ⟨ha1, aa1⟩ := p
      rw [hcn] at hcall
      dsimp only at hcall
      cases hcl2 : cloneList fuel ha1 as with
      | none => rw [hcl2] at hcall; simp at hcall
      | some q =>
        obtain ⟨hb, asb⟩ := q
        rw [hcl2] at hcall
        dsimp only at hcall
        simp only [Option.some.injEq, Prod.mk.injEq] at hcall
        obtain ⟨hh2, has2⟩ := hcall
        obtain ⟨⟨e1, he1⟩, hcf1, ha1n0⟩ := cloneNode_spec fuel h a n0 ha1 aa1 hcn hlen hcf
        have hl1 : n0 ≤ ha1.length := by rw [he1]; simp; omega
        obtain ⟨⟨e2, he2⟩, hcf2, hbs2⟩ :=
          cloneList_spec fuel ha1 as n0 hb asb hcl2 hl1 hcf1
        subst hh2
        refine ⟨⟨e1 ++ e2, by rw [he2, he1, List.append_assoc]⟩, hcf2, ?_⟩
        rw [← has2]
        intro b hb
        rcases List.mem_cons.mp hb with rfl | hb
        · exact ha1n0
        · exact hbs2 b hb

end

mutual

/-- The pre-order address search started inside the fresh region stays
inside it. -/
theorem findAddr_ge : ∀ (fuel : Nat) (h : Heap) (a : Nat) (nombre : String) (n0 r : Nat),
    ClosedFrom h n0 → n0 ≤ a → findAddrByName fuel h a nombre = some r → n0 ≤ r
  | 0, h, a, nombre, n0, r => by intro _ _ hcall; simp [findAddrByName] at hcall
  | fuel + 1, h, a, nombre, n0, r => by
    intro hcf ha hcall
    rw [findAddrByName] at hcall
    cases hh : h[a]? with
    | none => rw [hh] at hcall; simp at hcall
    | some hn =>
      rw [hh] at hcall
      dsimp only at hcall
      by_cases hnm : hn.nombre = nombre
      · rw [if_pos hnm] at hcall
        injection hcall with hcall
        omega
      · rw [if_neg hnm] at hcall
        exact findAddrList_ge fuel h hn.hijos nombre n0 r hcf (hcf a hn ha hh) hcall

theorem findAddrList_ge : ∀ (fuel : Nat) (h : Heap) (as : List Nat) (nombre : String)
      (n0 r : Nat),
    ClosedFrom h n0 → (∀ b ∈ as, n0 ≤ b) → findAddrList fuel h as nombre = some r → n0 ≤ r
  | 0, h, as, nombre, n0, r => by intro _ _ hcall; simp [findAddrList] at hcall
  | fuel + 1, h, [], nombre, n0, r => by intro _ _ hcall; simp [findAddrList] at hcall
  | fuel + 1, h, a :: as, nombre, n0, r => by
    intro hcf hbs hcall
    rw [findAddrList] at hcall
    cases hf : findAddrByName fuel h a nombre with
    | some r1 =>
      rw [hf] at hcall
      dsimp only at hcall
      injection hcall with hcall
      rw [← hcall]
      exact findAddr_ge fuel h a nombre n0 r1 hcf (hbs a (List.mem_cons_self _ _)) hf
    | none =>
      rw [hf] at hcall
      dsimp only at hcall
      exact findAddrList_ge fuel h as nombre n0 r hcf
        (fun b hb => hbs b (List.mem_cons_of_mem _ hb)) hcall

end

/-- The in-place pushes touch only the found address (inside the fresh
region) and fresh allocations: addresses below `n0` read the same, and
the fresh region stays closed. -/
lemma heapAddDetails_spec (now expIdx a n0 : Nat) (ha : n0 ≤ a) :
    ∀ (ds : List SubDetalle) (h : Heap) (idx : Nat),
      n0 ≤ h.length → ClosedFrom h n0 →
      (∀ i, i < n0 → (heapAddDetails now expIdx a h idx ds)[i]? = h[i]?) ∧
      ClosedFrom (heapAddDetails now expIdx a h idx ds) n0 ∧
      n0 ≤ (heapAddDetails now expIdx a h idx ds).length := by
  intro ds
  induction ds with
  | nil => intro h idx hlen hcf; exact ⟨fun i _ => rfl, hcf, hlen⟩
  | cons d ds ih =>
    intro h idx hlen hcf
    cases hh : h[a]? with
    | none =>
      have hstep : heapAddDetails now expIdx a h idx (d :: ds) = h := by
        rw [heapAddDetails, hh]
      rw [hstep]
      exact ⟨fun i _ => rfl, hcf, hlen⟩
    | some hn =>
      have halen : a < h.length := (List.getElem?_eq_some.mp hh).1
      have hstep : heapAddDetails now expIdx a h idx (d :: ds)
          = heapAddDetails now expIdx a
              ((h.set a { hn with hijos := hn.hijos ++ [h.length] })
                ++ [expChild now expIdx idx hn d]) (idx + 1) ds := by
        rw [heapAddDetails, hh]
      have hlen2 : n0 ≤ ((h.set a { hn with hijos := hn.hijos ++ [h.length] })
          ++ [expChild now expIdx idx hn d]).length := by
        simp; omega
      have hag2 : ∀ i, i < n0 →
          ((h.set a { hn with hijos := hn.hijos ++ [h.length] })
            ++ [expChild now expIdx idx hn d])[i]? = h[i]? := by
        intro i hi
        rw [List.getElem?_append_left (by rw [List.length_set]; omega),
          List.getElem?_set_ne (by omega)]
      have hcf2 : ClosedFrom ((h.set a { hn with hijos := hn.hijos ++ [h.length] })
          ++ [expChild now expIdx idx hn d]) n0 := by
        intro i k hi hk b hb
        rcases lt_trichotomy i h.length with hlt | heq | hgt
        · rw [List.getElem?_append_left (by rw [List.length_set]; omega)] at hk
          by_cases hia : i = a
          · rw [hia, List.getElem?_set_self (by omega)] at hk
            injection hk with hk
            subst hk
            simp only at hb
            rcases List.mem_append.mp hb with hb | hb
            · exact hcf a hn ha hh b hb
            · rcases List.mem_singleton.mp hb with rfl
              exact hlen
          · rw [List.getElem?_set_ne (fun hc => hia hc.symm)] at hk
            exact hcf i k hi hk b hb
        · have hL : (List.set h a { hn with hijos := hn.hijos ++ [List.length h] }).length
              = h.length := List.length_set _ _ _
          rw [heq, List.getElem?_append_right hL.le, hL] at hk
          simp only [Nat.sub_self, List.getElem?_cons_zero] at hk
          injection hk with hk
          subst hk
          exact absurd hb (by simp [expChild])
        · rw [List.getElem?_eq_none (by simp; omega)] at hk
          exact absurd hk (by simp)
      obtain ⟨ag3, cf3, len3⟩ := ih _ (idx + 1) hlen2 hcf2
      rw [hstep]
      exact ⟨fun i hi => (ag3 i hi).trans (hag2 i hi), cf3, len3⟩

/-- The whole expansion loop frames the original region. -/
lemma heapApplyExpansions_spec (fuel now root n0 : Nat) (hroot : n0 ≤ root) :
    ∀ (es : List Expansion) (h : Heap) (expIdx : Nat),
      n0 ≤ h.length → ClosedFrom h n0 →
      (∀ i, i < n0 → (heapApplyExpansions fuel now root h expIdx es)[i]? = h[i]?) ∧
      ClosedFrom (heapApplyExpansions fuel now root h expIdx es) n0 ∧
      n0 ≤ (heapApplyExpansions fuel now root h expIdx es).length := by
  intro es
  induction es with
  | nil => intro h expIdx hlen hcf; exact ⟨fun i _ => rfl, hcf, hlen⟩
  | cons e rest ih =>
    intro h expIdx hlen hcf
    cases hf : findAddrByName fuel h root e.conceptoOriginal with
    | none =>
      have hstep : heapApplyExpansions fuel now root h expIdx (e :: rest)
          = heapApplyExpansions fuel now root h (expIdx + 1) rest := by
        rw [heapApplyExpansions, hf]
      rw [hstep]
      exact ih h (expIdx + 1) hlen hcf
    | some aaddr =>
      have hstep : heapApplyExpansions fuel now root h expIdx (e :: rest)
          = heapApplyExpansions fuel now root
              (heapAddDetails now expIdx aaddr h 0 e.subDetalles) (expIdx + 1) rest := by
        rw [heapApplyExpansions, hf]
      have han0 : n0 ≤ aaddr := findAddr_ge fuel h root e.conceptoOriginal n0 aaddr hcf hroot hf
      obtain ⟨ag1, cf1, len1⟩ :=
        heapAddDetails_spec now expIdx aaddr n0 han0 e.subDetalles h 0 hlen hcf
      obtain ⟨ag2, cf2, len2⟩ := ih _ (expIdx + 1) len1 cf1
      rw [hstep]
      exact ⟨fun i hi => (ag2 i hi).trans (ag1 i hi), cf2, len2⟩

/-- Heaps that agree below `n0` (with all pointers below `n0` staying
below it) dereference to the same trees there. -/
lemma read_agree (n0 : Nat) (h h' : Heap)
    (hag : ∀ i, i < n0 → h'[i]? = h[i]?)
    (hcl : ∀ i hn, i < n0 → h[i]? = some hn → ∀ b ∈ hn.hijos, b < n0) :
    ∀ fuel : Nat,
      (∀ a, a < n0 → readNode fuel h' a = readNode fuel h a) ∧
      (∀ as : List Nat, (∀ b ∈ as, b < n0) → readList fuel h' as = readList fuel h as) := by
  intro fuel
  induction fuel with
  | zero =>
    refine ⟨fun a _ => by rw [readNode, readNode], ?_⟩
    intro as _
    rw [readList, readList]
  | succ fuel ihf =>
    constructor
    · intro a ha
      rw [readNode, readNode, hag a ha]
      cases hh : h[a]? with
      | none => rfl
      | some hn =>
        dsimp only
        rw [(ihf.2) hn.hijos (hcl a hn ha hh)]
    · intro as has
      cases as with
      | nil => rw [readList, readList]
      | cons b bs =>
        rw [readList, readList,
          ihf.1 b (has b (List.mem_cons_self _ _)),
          ihf.2 bs (fun x hx => has x (List.mem_cons_of_mem _ hx))]

/-! ## Example inputs used by witnesses -/

def exLeafA : TreeNode := .mk "sub-0-0" "S1" (some "d1") none .subconcept [] (some "#c0392b")

def exLeafB : TreeNode := .mk "sub-0-1" "S2" none none .subconcept [] (some "#c0392b")

def exBranch0 : TreeNode :=
  .mk "concept-0" "C1" (some "desc") (some "tiene") .concept [exLeafA, exLeafB] (some "#c0392b")

def exBranch1 : TreeNode :=
  .mk "concept-1" "C2" none (some "tiene") .concept [] (some "#2980b9")

def exTree : ConceptTree :=
  { tema := "T", profundidad := .intermedio,
    raiz := .mk "main" "T" none none .main [exBranch0, exBranch1] (some "#6366f1") }

/-! ## Sibling groups of the layout

`layoutFromTree` assigns y-positions to siblings in exactly two places:
the branch loop (`stackStarts` with gap `NODE_VERTICAL_GAP *
BRANCH_GAP_MULTIPLIER` from 0) and the children loop inside
`createNodesRecursive` (`stackStarts` with gap `NODE_VERTICAL_GAP` from
`childY`).  `siblingGroups` collects every such group of
(sibling, startY) pairs; a sibling's placed center is `startY + extent/2`
(`placedY`), exactly the `y` emitted for it by `emitChildren` /
`layoutBranches`. -/

mutual

def siblingGroupsNode : TreeNode → ℚ → ℚ → List (List (TreeNode × ℚ))
  | .mk _ _ _ _ _ hijos _, startY, availableHeight =>
    if hijos.length = 0 then []
    else
      let totalChildrenHeight :=
        sumHeights hijos + ((hijos.length : ℚ) - 1) * NODE_VERTICAL_GAP
      let childY := startY + (availableHeight - totalChildrenHeight) / 2
      stackStarts NODE_VERTICAL_GAP hijos childY :: siblingGroupsChildren hijos childY

def siblingGroupsChildren : List TreeNode → ℚ → List (List (TreeNode × ℚ))
  | [], _ => []
  | c :: cs, childY =>
    siblingGroupsNode c childY (calcHeight c)
      ++ siblingGroupsChildren cs (childY + calcHeight c + NODE_VERTICAL_GAP)

end

def siblingGroupsBranches : List (TreeNode × ℚ) → List (List (TreeNode × ℚ))
  | [] => []
  | (b, startY) :: rest =>
    siblingGroupsNode b startY (calcHeight b) ++ siblingGroupsBranches rest

def siblingGroups (tree : ConceptTree) : List (List (TreeNode × ℚ)) :=
  let branches := stackStarts (NODE_VERTICAL_GAP * BRANCH_GAP_MULTIPLIER) tree.raiz.hijos 0
  branches :: siblingGroupsBranches branches

/-- The y-coordinate the layout engine emits for a stacked sibling:
its start position plus half its extent. -/
def placedY (p : TreeNode × ℚ) : ℚ := p.2 + calcHeight p.1 / 2

/-- The vertical interval `[y - extent/2, y + extent/2]` of a placed
sibling, with `extent = calcHeight`. -/
def vInterval (p : TreeNode × ℚ) : Set ℚ :=
  Set.Icc (placedY p - calcHeight p.1 / 2) (placedY p + calcHeight p.1 / 2)

lemma stackStarts_le (gap : ℚ) (hg : 0 ≤ gap) (l : List TreeNode) :
    ∀ y : ℚ, ∀ p ∈ stackStarts gap l y, y ≤ p.2 := by
  induction l with
  | nil => intro y p hp; simp [stackStarts] at hp
  | cons c cs ih =>
    intro y p hp
    rw [stackStarts] at hp
    rcases List.mem_cons.mp hp with rfl | hp
    · exact le_refl _
    · have h2 := ih (y + calcHeight c + gap) p hp
      have hc := calcHeight_pos c
      linarith

/-- Consecutive stacking separates siblings: each one ends strictly
before the next begins. -/
lemma stackStarts_pairwise (gap : ℚ) (hg : 0 < gap) (l : List TreeNode) :
    ∀ y : ℚ, (stackStarts gap l y).Pairwise
      (fun a b => a.2 + calcHeight a.1 < b.2) := by
  induction l with
  | nil => intro y; simp [stackStarts]
  | cons c cs ih =>
    intro y
    rw [stackStarts]
    refine List.Pairwise.cons ?_ (ih _)
    intro p hp
    have h2 := stackStarts_le gap (le_of_lt hg) cs (y + calcHeight c + gap) p hp
    simpa using by linarith

/-- Separated startYs give disjoint vertical intervals. -/
lemma vInterval_disjoint_of_sep {a b : TreeNode × ℚ}
    (h : a.2 + calcHeight a.1 < b.2) : Disjoint (vInterval a) (vInterval b) := by
  have ha : placedY a + calcHeight a.1 / 2 = a.2 + calcHeight a.1 := by
    simp [placedY]; ring
  have hb : placedY b - calcHeight b.1 / 2 = b.2 := by
    simp [placedY]
  rw [vInterval, vInterval, ha, hb, Set.disjoint_left]
  intro x hx hx2
  rw [Set.mem_Icc] at hx hx2
  linarith [hx.2, hx2.1]

lemma stackStarts_disjoint (gap : ℚ) (hg : 0 < gap) (l : List TreeNode) (y : ℚ) :
    (stackStarts gap l y).Pairwise (fun a b => Disjoint (vInterval a) (vInterval b)) :=
  (stackStarts_pairwise gap hg l y).imp fun h => vInterval_disjoint_of_sep h

mutual

theorem siblingGroupsNode_disjoint : ∀ (n : TreeNode) (startY availableHeight : ℚ),
    ∀ g ∈ siblingGroupsNode n startY availableHeight,
      g.Pairwise (fun a b => Disjoint (vInterval a) (vInterval b))
  | .mk i nom d r t hijos c, startY, availableHeight => by
    intro g hg
    rw [siblingGroupsNode] at hg
    by_cases h0 : hijos.length = 0
    · rw [if_pos h0] at hg; simp at hg
    · rw [if_neg h0] at hg
      rcases List.mem_cons.mp hg with rfl | hg
      · exact stackStarts_disjoint NODE_VERTICAL_GAP (by norm_num [NODE_VERTICAL_GAP]) _ _
      · exact siblingGroupsChildren_disjoint hijos _ g hg

theorem siblingGroupsChildren_disjoint : ∀ (l : List TreeNode) (childY : ℚ),
    ∀ g ∈ siblingGroupsChildren l childY,
      g.Pairwise (fun a b => Disjoint (vInterval a) (vInterval b))
  | [], _ => by intro g hg; simp [siblingGroupsChildren] at hg
  | c :: cs, childY => by
    intro g hg
    rw [siblingGroupsChildren] at hg
    rcases List.mem_append.mp hg with hg | hg
    · exact siblingGroupsNode_disjoint c _ _ g hg
    · exact siblingGroupsChildren_disjoint cs _ g hg

end

lemma siblingGroupsBranches_disjoint (bs : List (TreeNode × ℚ)) :
    ∀ g ∈ siblingGroupsBranches bs,
      g.Pairwise (fun a b => Disjoint (vInterval a) (vInterval b)) := by
  induction bs with
  | nil => intro g hg; simp [siblingGroupsBranches] at hg
  | cons p rest ih =>
    intro g hg
    obtain ⟨b, startY⟩ := p
    rw [siblingGroupsBranches] at hg
    rcases List.mem_append.mp hg with hg | hg
    · exact siblingGroupsNode_disjoint b _ _ g hg
    · exact ih g hg

/-! ## Depth observer for the horizontal axis

`layoutDepths` lists, in emission order, the depth of every node the
layout engine emits.  It is defined purely from the tree structure —
no extents, no y-geometry — so equating the emitted x-coordinates with
a function of it shows x depends only on depth. -/

mutual

def depthsNode : TreeNode → Nat → List Nat
  | .mk _ _ _ _ _ hijos _, level =>
    if hijos.length = 0 then [] else depthsList hijos level

def depthsList : List TreeNode → Nat → List Nat
  | [], _ => []
  | _child :: rest, level => level :: depthsNode _child (level + 1) ++ depthsList rest level

end

def depthsBranches : List TreeNode → List Nat
  | [] => []
  | b :: bs => 1 :: depthsNode b 2 ++ depthsBranches bs

def layoutDepths (tree : ConceptTree) : List Nat :=
  0 :: depthsBranches tree.raiz.hijos

mutual

theorem createNodes_x_depths : ∀ (n : TreeNode) (pid : String) (level : Nat) (sY aH : ℚ),
    (createNodesRecursive n pid level sY aH).1.map PNode.x
      = (depthsNode n level).map (fun d => START_X + (d : ℚ) * LEVEL_X_GAP)
  | .mk i nom d r t hijos c, pid, level, sY, aH => by
    rw [createNodesRecursive, depthsNode]
    by_cases h0 : hijos.length = 0
    · rw [if_pos h0, if_pos h0]; rfl
    · rw [if_neg h0, if_neg h0]
      exact emitChildren_x_depths hijos pid level _

theorem emitChildren_x_depths : ∀ (l : List TreeNode) (pid : String) (level : Nat) (y : ℚ),
    (emitChildren l pid level y).1.map PNode.x
      = (depthsList l level).map (fun d => START_X + (d : ℚ) * LEVEL_X_GAP)
  | [], _, _, _ => by rw [emitChildren, depthsList]; rfl
  | child :: rest, pid, level, y => by
    have h1 := createNodes_x_depths child child.id (level + 1) y (calcHeight child)
    have h2 := emitChildren_x_depths rest pid level (y + calcHeight child + NODE_VERTICAL_GAP)
    simp [emitChildren, depthsList, h1, h2]

end

lemma layoutBranches_x_depths (rid : String) (bs : List (TreeNode × ℚ)) :
    (layoutBranches rid bs).1.map PNode.x
      = (depthsBranches (bs.map Prod.fst)).map (fun d => START_X + (d : ℚ) * LEVEL_X_GAP) := by
  induction bs with
  | nil => rfl
  | cons p rest ih =>
    obtain ⟨b, sY⟩ := p
    have h1 := createNodes_x_depths b b.id 2 sY (calcHeight b)
    simp [layoutBranches, depthsBranches, h1, ih]

lemma stackStarts_map_fst (gap : ℚ) (l : List TreeNode) :
    ∀ y : ℚ, (stackStarts gap l y).map Prod.fst = l := by
  induction l with
  | nil => intro y; rfl
  | cons c cs ih => intro y; rw [stackStarts]; simp [ih]

/-! ## Sibling groups are the layout's placements

Every `(sibling, startY)` pair in a sibling group corresponds to a node
actually emitted by the layout engine, with emitted `y = placedY`. -/

lemma emitChildren_mem_of_stack (pid : String) (level : Nat) (l : List TreeNode) :
    ∀ y : ℚ, ∀ p ∈ stackStarts NODE_VERTICAL_GAP l y,
      ∃ pn ∈ (emitChildren l pid level y).1, pn.id = p.1.id ∧ pn.y = placedY p := by
  induction l with
  | nil => intro y p hp; simp [stackStarts] at hp
  | cons c cs ih =>
    intro y p hp
    rw [stackStarts] at hp
    rw [emitChildren]
    dsimp only
    rcases List.mem_cons.mp hp with rfl | hp
    · exact ⟨_, List.mem_cons_self _ _, rfl, rfl⟩
    · obtain ⟨pn, hmem, hid, hy⟩ := ih (y + calcHeight c + NODE_VERTICAL_GAP) p hp
      exact ⟨pn, List.mem_cons_of_mem _ (List.mem_append_right _ hmem), hid, hy⟩

mutual

theorem siblingGroupsNode_mem : ∀ (n : TreeNode) (pid : String) (level : Nat) (sY aH : ℚ),
    ∀ g ∈ siblingGroupsNode n sY aH, ∀ p ∈ g,
      ∃ pn ∈ (createNodesRecursive n pid level sY aH).1, pn.id = p.1.id ∧ pn.y = placedY p
  | .mk i nom d r t hijos c, pid, level, sY, aH => by
    intro g hg p hp
    rw [siblingGroupsNode] at hg
    rw [createNodesRecursive]
    by_cases h0 : hijos.length = 0
    · rw [if_pos h0] at hg; simp at hg
    · rw [if_neg h0] at hg
      rw [if_neg h0]
      dsimp only at hg ⊢
      rcases List.mem_cons.mp hg with rfl | hg
      · exact emitChildren_mem_of_stack pid level hijos _ p hp
      · exact siblingGroupsChildren_mem hijos pid level _ g hg p hp

theorem siblingGroupsChildren_mem : ∀ (l : List TreeNode) (pid : String) (level : Nat) (y : ℚ),
    ∀ g ∈ siblingGroupsChildren l y, ∀ p ∈ g,
      ∃ pn ∈ (emitChildren l pid level y).1, pn.id = p.1.id ∧ pn.y = placedY p
  | [], _, _, _ => by intro g hg; simp [siblingGroupsChildren] at hg
  | c :: cs, pid, level, y => by
    intro g hg p hp
    rw [siblingGroupsChildren] at hg
    rw [emitChildren]
    dsimp only
    rcases List.mem_append.mp hg with hg | hg
    · obtain ⟨pn, hmem, hid, hy⟩ :=
        siblingGroupsNode_mem c c.id (level + 1) y (calcHeight c) g hg p hp
      exact ⟨pn, List.mem_cons_of_mem _ (List.mem_append_left _ hmem), hid, hy⟩
    · obtain ⟨pn, hmem, hid, hy⟩ :=
        siblingGroupsChildren_mem cs pid level (y + calcHeight c + NODE_VERTICAL_GAP) g hg p hp
      exact ⟨pn, List.mem_cons_of_mem _ (List.mem_append_right _ hmem), hid, hy⟩

end

lemma layoutBranches_mem (rid : String) (bs : List (TreeNode × ℚ)) :
    (∀ p ∈ bs, ∃ pn ∈ (layoutBranches rid bs).1, pn.id = p.1.id ∧ pn.y = placedY p) ∧
    (∀ g ∈ siblingGroupsBranches bs, ∀ p ∈ g,
      ∃ pn ∈ (layoutBranches rid bs).1, pn.id = p.1.id ∧ pn.y = placedY p) := by
  induction bs with
  | nil =>
    constructor
    · intro p hp; simp at hp
    · intro g hg; simp [siblingGroupsBranches] at hg
  | cons q rest ih =>
    obtain ⟨b, startY⟩ := q
    constructor
    · intro p hp
      rw [layoutBranches]
      dsimp only
      rcases List.mem_cons.mp hp with rfl | hp
      · exact ⟨_, List.mem_cons_self _ _, rfl, rfl⟩
      · obtain ⟨pn, hmem, hid, hy⟩ := ih.1 p hp
        exact ⟨pn, List.mem_cons_of_mem _ (List.mem_append_right _ hmem), hid, hy⟩
    · intro g hg p hp
      rw [layoutBranches]
      dsimp only
      rw [siblingGroupsBranches] at hg
      rcases List.mem_append.mp hg with hg | hg
      · obtain ⟨pn, hmem, hid, hy⟩ :=
          siblingGroupsNode_mem b b.id 2 startY (calcHeight b) g hg p hp
        exact ⟨pn, List.mem_cons_of_mem _ (List.mem_append_left _ hmem), hid, hy⟩
      · obtain ⟨pn, hmem, hid, hy⟩ := ih.2 g hg p hp
        exact ⟨pn, List.mem_cons_of_mem _ (List.mem_append_right _ hmem), hid, hy⟩

/-- Each sibling-group member is one of the layout's emitted placements:
same node id, and emitted `y` equal to `placedY` (startY + extent/2). -/
lemma siblingGroups_mem_layout (tree : ConceptTree) :
    ∀ g ∈ siblingGroups tree, ∀ p ∈ g,
      ∃ pn ∈ (layoutFromTree tree).1, pn.id = p.1.id ∧ pn.y = placedY p := by
  intro g hg p hp
  simp only [siblingGroups] at hg
  rw [layoutFromTree]
  dsimp only
  rcases List.mem_cons.mp hg with rfl | hg
  · obtain ⟨pn, hmem, hid, hy⟩ := (layoutBranches_mem tree.raiz.id _).1 p hp
    exact ⟨pn, List.mem_cons_of_mem _ hmem, hid, hy⟩
  · obtain ⟨pn, hmem, hid, hy⟩ := (layoutBranches_mem tree.raiz.id _).2 g hg p hp
    exact ⟨pn, List.mem_cons_of_mem _ hmem, hid, hy⟩

/-! ## Expansion lemmas -/

mutual

theorem deepCopyNode_eq : ∀ n : TreeNode, deepCopyNode n = n
  | .mk i nom d r t hijos c => by
    have h := deepCopyChildren_eq hijos
    rw [deepCopyNode, h]

theorem deepCopyChildren_eq : ∀ l : List TreeNode, deepCopyChildren l = l
  | [] => rfl
  | x :: xs => by
    have h1 := deepCopyNode_eq x
    have h2 := deepCopyChildren_eq xs
    rw [deepCopyChildren, h1, h2]

end

mutual

/-- If the pre-order search misses, the first-match update is the
identity and reports no match. -/
theorem expandFirst_of_not_found :
    ∀ (n : TreeNode) (nombre : String) (f : TreeNode → TreeNode),
      findNodeByName n nombre = none → expandFirst nombre f n = (n, false)
  | .mk i nom d r t hijos c, nombre, f => by
    intro h
    rw [findNodeByName] at h
    by_cases hn : nom = nombre
    · rw [if_pos hn] at h; exact absurd h (by simp)
    · rw [if_neg hn] at h
      have h2 := expandFirstChildren_of_not_found hijos nombre f h
      rw [expandFirst, if_neg hn, h2]

theorem expandFirstChildren_of_not_found :
    ∀ (l : List TreeNode) (nombre : String) (f : TreeNode → TreeNode),
      findInChildren l nombre = none → expandFirstChildren nombre f l = (l, false)
  | [], _, _ => fun _ => rfl
  | c :: cs, nombre, f => by
    intro h
    rw [findInChildren] at h
    cases hc : findNodeByName c nombre with
    | some found => rw [hc] at h; exact absurd h (by simp)
    | none =>
      rw [hc] at h
      have h1 := expandFirst_of_not_found c nombre f hc
      have h2 := expandFirstChildren_of_not_found cs nombre f h
      simp [expandFirstChildren, h1, h2]

end

lemma findNodeByName_self (k : TreeNode) (nombre : String) (h : k.nombre = nombre) :
    findNodeByName k nombre = some k := by
  rcases k with ⟨i, nom, d, r, t, hijos, c⟩
  rw [findNodeByName]
  rw [TreeNode.nombre] at h
  rw [if_pos h]

mutual

/-- If the pre-order search finds `m`, the first-match update applies
`f` exactly to that occurrence: the updated tree reports a match and
searching it finds `f m` (for name-preserving `f`). -/
theorem expandFirst_found :
    ∀ (n : TreeNode) (nombre : String) (f : TreeNode → TreeNode) (m : TreeNode),
      (∀ k : TreeNode, (f k).nombre = k.nombre) →
      findNodeByName n nombre = some m →
      (expandFirst nombre f n).2 = true ∧
      findNodeByName (expandFirst nombre f n).1 nombre = some (f m)
  | .mk i nom d r t hijos c, nombre, f, m => by
    intro hf h
    rw [findNodeByName] at h
    by_cases hn : nom = nombre
    · rw [if_pos hn] at h
      injection h with h
      subst h
      rw [expandFirst, if_pos hn]
      refine ⟨rfl, findNodeByName_self _ _ ?_⟩
      rw [hf]
      exact hn
    · rw [if_neg hn] at h
      have h2 := expandFirstChildren_found hijos nombre f m hf h
      rw [expandFirst, if_neg hn]
      refine ⟨h2.1, ?_⟩
      rw [findNodeByName, if_neg hn]
      exact h2.2

theorem expandFirstChildren_found :
    ∀ (l : List TreeNode) (nombre : String) (f : TreeNode → TreeNode) (m : TreeNode),
      (∀ k : TreeNode, (f k).nombre = k.nombre) →
      findInChildren l nombre = some m →
      (expandFirstChildren nombre f l).2 = true ∧
      findInChildren (expandFirstChildren nombre f l).1 nombre = some (f m)
  | [], _, _, _ => by intro _ h; simp [findInChildren] at h
  | c :: cs, nombre, f, m => by
    intro hf h
    rw [findInChildren] at h
    cases hc : findNodeByName c nombre with
    | some found =>
      rw [hc] at h
      injection h with h
      rw [h] at hc
      have h1 := expandFirst_found c nombre f m hf hc
      rw [expandFirstChildren.eq_def]
      simp only [h1.1, if_true]
      refine ⟨trivial, ?_⟩
      rw [findInChildren, h1.2]
    | none =>
      rw [hc] at h
      have h0 := expandFirst_of_not_found c nombre f hc
      have h2 := expandFirstChildren_found cs nombre f m hf h
      rw [expandFirstChildren.eq_def]
      simp only [h0, Bool.false_eq_true, if_false]
      refine ⟨h2.1, ?_⟩
      rw [findInChildren, hc]
      exact h2.2

end

/-- `pushDetails` keeps the target's name. -/
lemma pushDetails_nombre (expIdx now : Nat) (e : Expansion) (k : TreeNode) :
    (pushDetails expIdx now e k).nombre = k.nombre := rfl

/-- Turning a `mapIdx` of expansion children into a plain `map` of a
per-detail attribute. -/
lemma mapIdx_map_attr {β : Type} (l : List SubDetalle) (f : Nat → SubDetalle → TreeNode)
    (g : TreeNode → β) (h : SubDetalle → β) (hfg : ∀ i a, g (f i a) = h a) :
    (l.mapIdx f).map g = l.map h := by
  rw [List.mapIdx_eq_enum_map, List.map_map]
  have heq : (g ∘ Function.uncurry f) = (h ∘ Prod.snd) := by
    funext p; simp [Function.uncurry, hfg]
  rw [heq, ← List.map_map, List.enum_map_snd]

/-! ## Theorems -/

/-- **C1** — no-overlap: for every group of siblings (the root's
branches, stacked with gap `NODE_VERTICAL_GAP * BRANCH_GAP_MULTIPLIER`,
and every node's children, stacked with gap `NODE_VERTICAL_GAP`), every
group member is one of the placements emitted by `layoutFromTree` (same
id, emitted `y = placedY`), and the vertical intervals
`[y - extent/2, y + extent/2]` — with `extent = calcHeight` — of any two
distinct siblings are disjoint. -/
theorem c1_no_overlap (tree : ConceptTree) :
    ∀ g ∈ siblingGroups tree,
      (∀ p ∈ g, ∃ pn ∈ (layoutFromTree tree).1, pn.id = p.1.id ∧ pn.y = placedY p) ∧
      g.Pairwise (fun a b => Disjoint (vInterval a) (vInterval b)) := by
  intro g hg
  refine ⟨siblingGroups_mem_layout tree g hg, ?_⟩
  simp only [siblingGroups] at hg
  rcases List.mem_cons.mp hg with rfl | hg
  · exact stackStarts_disjoint _ (by norm_num [NODE_VERTICAL_GAP, BRANCH_GAP_MULTIPLIER]) _ _
  · exact siblingGroupsBranches_disjoint _ g hg

/-- **C1 witness** — the branch sibling group of a concrete tree has
pairwise disjoint vertical intervals. -/
theorem c1_witness :
    (stackStarts (NODE_VERTICAL_GAP * BRANCH_GAP_MULTIPLIER) exTree.raiz.hijos 0).Pairwise
      (fun a b => Disjoint (vInterval a) (vInterval b)) :=
  (c1_no_overlap exTree _ (List.mem_cons_self _ _)).2

/-- **C4** — depth-only horizontal placement: the x-coordinates emitted
by `layoutFromTree`, in emission order, equal `START_X + depth *
LEVEL_X_GAP` applied to the node depths listed by `layoutDepths`, which
is computed from the bare tree structure alone (no sibling indices, no
extents, no subtree shapes). -/
theorem c4_x_depends_only_on_depth (tree : ConceptTree) :
    (layoutFromTree tree).1.map PNode.x
      = (layoutDepths tree).map (fun d => START_X + (d : ℚ) * LEVEL_X_GAP) := by
  have h1 := layoutBranches_x_depths tree.raiz.id
    (stackStarts (NODE_VERTICAL_GAP * BRANCH_GAP_MULTIPLIER) tree.raiz.hijos 0)
  simp [layoutFromTree, layoutDepths, h1, stackStarts_map_fst]

/-- **C2 counterexample** — the claim says `buildTreeFromApi` fails with
`InvalidInputError` on an empty topic or empty branches and returns no
tree; on the concrete input (empty topic, empty branches) the code
performs no validation and returns a tree (root only). -/
theorem c2_counterexample :
    buildTreeFromApi "" .intermedio [] =
      { tema := "", profundidad := .intermedio,
        raiz := .mk "main" "" none none .main [] (some "#6366f1") } := rfl

/-- **C2 (amended)** — `buildTreeFromApi` never fails and performs no
input validation: for every topic and branch list (empty ones included)
it returns a `ConceptTree` whose root has id `"main"`, kind `main`,
name equal to the topic, and one `concept` child per branch. -/
theorem c2_amended_no_validation (tema : String) (prof : Profundidad)
    (conceptos : List ApiConcepto) :
    (buildTreeFromApi tema prof conceptos).tema = tema ∧
    (buildTreeFromApi tema prof conceptos).profundidad = prof ∧
    (buildTreeFromApi tema prof conceptos).raiz.id = "main" ∧
    (buildTreeFromApi tema prof conceptos).raiz.nombre = tema ∧
    (buildTreeFromApi tema prof conceptos).raiz.tipo = .main ∧
    (buildTreeFromApi tema prof conceptos).raiz.hijos.length = conceptos.length := by
  refine ⟨rfl, rfl, rfl, rfl, rfl, ?_⟩
  simp [buildTreeFromApi, TreeNode.hijos]

/-- **C3** — the sizer: a leaf's extent is `NODE_HEIGHT`; an internal
node's extent is `max(NODE_HEIGHT, sum of children extents +
(childCount - 1) * NODE_VERTICAL_GAP)`; every extent is at least
`NODE_HEIGHT` and at least the children's stacked, gapped extents. -/
theorem c3_calcHeight_spec (n : TreeNode) :
    (n.hijos = [] → calcHeight n = NODE_HEIGHT) ∧
    (n.hijos ≠ [] →
      calcHeight n = max NODE_HEIGHT
        ((n.hijos.map calcHeight).sum + ((n.hijos.length : ℚ) - 1) * NODE_VERTICAL_GAP)) ∧
    NODE_HEIGHT ≤ calcHeight n ∧
    (n.hijos.map calcHeight).sum + ((n.hijos.length : ℚ) - 1) * NODE_VERTICAL_GAP
      ≤ calcHeight n := by
  rcases n with ⟨i, nom, d, r, t, hijos, c⟩
  rcases hijos with _ | ⟨c0, cs⟩
  · refine ⟨fun _ => rfl, fun h => absurd rfl h, le_refl _, ?_⟩
    simp [TreeNode.hijos, calcHeight, NODE_HEIGHT, NODE_VERTICAL_GAP]
    norm_num
  · constructor
    · intro h; simp [TreeNode.hijos] at h
    constructor
    · intro _
      rw [calcHeight_def]
      simp [TreeNode.hijos, sumHeights_eq_sum]
    constructor
    · exact NODE_HEIGHT_le_calcHeight _
    · rw [calcHeight_def]
      simp only [TreeNode.hijos, List.length_cons]
      rw [if_neg (by simp)]
      rw [sumHeights_eq_sum]
      exact le_max_right _ _

/-- **C3 witness** — the leaf clause evaluated at a concrete leaf. -/
theorem c3_witness : calcHeight exLeafA = NODE_HEIGHT :=
  (c3_calcHeight_spec exLeafA).1 rfl

/-- **C5** — the layout engine is deterministic: on equal trees (same
ids, structure and order) it yields identical node placements and
identical connector sequences; the embedding exhibits it as a pure
function of the tree, with no hidden state and no randomness. -/
theorem c5_layout_deterministic (t1 t2 : ConceptTree) (h : t1 = t2) :
    layoutFromTree t1 = layoutFromTree t2 := by rw [h]

/-- **C5 witness** — determinism at a concrete tree. -/
theorem c5_witness : layoutFromTree exTree = layoutFromTree exTree :=
  c5_layout_deterministic exTree exTree rfl

/-- **C7** — expansion targeting: if the pre-order search finds `m` for
the entry's `conceptoOriginal`, then in the returned tree the search
finds exactly that node with one new child per detail appended after its
existing children — in input order, of kind `expanded`, named after the
details, and all carrying the target's `color`. -/
theorem c7_expansion_targeting (now : Nat) (t : ConceptTree) (e : Expansion) (m : TreeNode)
    (h : findNodeByName t.raiz e.conceptoOriginal = some m) :
    findNodeByName (addExpansionsToTree now t [e]).raiz e.conceptoOriginal
        = some (pushDetails 0 now e m) ∧
    (pushDetails 0 now e m).hijos
        = m.hijos ++ e.subDetalles.mapIdx (mkExpandedNode m.id m.color 0 now) ∧
    (e.subDetalles.mapIdx (mkExpandedNode m.id m.color 0 now)).map TreeNode.tipo
        = e.subDetalles.map (fun _ => Tipo.expanded) ∧
    (e.subDetalles.mapIdx (mkExpandedNode m.id m.color 0 now)).map TreeNode.nombre
        = e.subDetalles.map SubDetalle.nombre ∧
    (e.subDetalles.mapIdx (mkExpandedNode m.id m.color 0 now)).map TreeNode.color
        = e.subDetalles.map (fun _ => m.color) := by
  have hf : ∀ k : TreeNode, (pushDetails 0 now e k).nombre = k.nombre := fun k => rfl
  have hmain := (expandFirst_found t.raiz e.conceptoOriginal (pushDetails 0 now e) m hf h).2
  refine ⟨?_, rfl, ?_, ?_, ?_⟩
  · simp only [addExpansionsToTree, deepCopyNode_eq, applyExpansions]
    rw [h]
    exact hmain
  · exact mapIdx_map_attr _ _ _ _ (fun i a => rfl)
  · exact mapIdx_map_attr _ _ _ _ (fun i a => rfl)
  · exact mapIdx_map_attr _ _ _ _ (fun i a => rfl)

/-- Expansion entry used by witnesses. -/
def exExp : Expansion := ⟨"S2", [⟨"X", "d1"⟩, ⟨"Y", "d2"⟩]⟩

/-- **C7 witness** — expanding `exTree` at the leaf named "S2". -/
theorem c7_witness :
    findNodeByName (addExpansionsToTree 7 exTree [exExp]).raiz exExp.conceptoOriginal
      = some (pushDetails 0 7 exExp exLeafB) :=
  (c7_expansion_targeting 7 exTree exExp exLeafB rfl).1

lemma applyExpansions_of_none (now : Nat) (r : TreeNode) (es : List Expansion)
    (h : ∀ e ∈ es, findNodeByName r e.conceptoOriginal = none) :
    ∀ i : Nat, applyExpansions now i r es = r := by
  induction es with
  | nil => intro i; rfl
  | cons e rest ih =>
    intro i
    rw [applyExpansions, h e (List.mem_cons_self _ _)]
    exact ih (fun e' he' => h e' (List.mem_cons_of_mem _ he')) (i + 1)

/-- **C8** — missing-target no-op: when every entry's `conceptoOriginal`
matches no node of the tree, the mutator raises nothing and returns a
tree equal to its input. -/
theorem c8_missing_target_noop (now : Nat) (t : ConceptTree) (es : List Expansion)
    (h : ∀ e ∈ es, findNodeByName t.raiz e.conceptoOriginal = none) :
    addExpansionsToTree now t es = t := by
  cases t with
  | mk tema prof raiz =>
    simp only [addExpansionsToTree, deepCopyNode_eq]
    rw [applyExpansions_of_none now raiz es h 0]

/-- **C8 witness** — an absent target name leaves a concrete tree intact. -/
theorem c8_witness :
    addExpansionsToTree 7 exTree [⟨"ZZZ", [⟨"X", "d1"⟩]⟩] = exTree :=
  c8_missing_target_noop 7 exTree _
    (fun e he => by rcases List.mem_singleton.mp he with rfl; rfl)

/-- **C9** — idempotent rebuild: expanding with the empty expansions
list returns a tree equal to the input, so re-running the layout engine
on it yields the same placements and connectors. -/
theorem c9_empty_expansion_roundtrip (now : Nat) (t : ConceptTree) :
    addExpansionsToTree now t [] = t ∧
    layoutFromTree (addExpansionsToTree now t []) = layoutFromTree t := by
  have h1 : addExpansionsToTree now t [] = t := by
    cases t with
    | mk tema prof raiz => simp [addExpansionsToTree, deepCopyNode_eq, applyExpansions]
  exact ⟨h1, by rw [h1]⟩

/-- **C6** — frame property of the mutator: in the heap embedding of
`addExpansionsToTree` (deep clone first, then find-by-name and in-place
pushes on the clone only), the entire original region of the heap is
untouched, so a caller still holding the input tree reads — from any
original address — exactly the tree it read before the call: same
structure, ids, names, kinds, colors and children order. -/
theorem c6_input_tree_unchanged (fuel now : Nat) (h : Heap) (root : Nat)
    (es : List Expansion) (h' : Heap) (r' : Nat)
    (hwf : HeapWellFormed h)
    (hcall : heapAddExpansionsToTree fuel now h root es = some (h', r')) :
    ∀ (fuel2 a : Nat), a < h.length → readNode fuel2 h' a = readNode fuel2 h a := by
  rw [heapAddExpansionsToTree] at hcall
  cases hcn : cloneNode fuel h root with
  | none => rw [hcn] at hcall; simp at hcall
  | some p =>
    obtain ⟨h1, r1⟩ := p
    rw [hcn] at hcall
    dsimp only at hcall
    simp only [Option.some.injEq, Prod.mk.injEq] at hcall
    obtain ⟨hh', hr'⟩ := hcall
    have hcf0 : ClosedFrom h h.length := by
      intro i hn hi hget b hb
      rw [List.getElem?_eq_none hi] at hget
      exact absurd hget (by simp)
    obtain ⟨⟨ext, hext⟩, hcf1, hr1n⟩ :=
      cloneNode_spec fuel h root h.length h1 r1 hcn (le_refl _) hcf0
    have hlen1 : h.length ≤ h1.length := by rw [hext]; simp
    obtain ⟨ag, _, _⟩ := heapApplyExpansions_spec fuel now r1 h.length hr1n es h1 0 hlen1 hcf1
    intro fuel2 a ha
    have hagree : ∀ i, i < h.length → h'[i]? = h[i]? := by
      intro i hi
      rw [← hh', ag i hi, hext, List.getElem?_append_left hi]
    have hcl : ∀ i hn, i < h.length → h[i]? = some hn → ∀ b ∈ hn.hijos, b < h.length := by
      intro i hn _ hget b hb
      exact hwf hn (List.getElem?_mem hget) b hb
    exact (read_agree h.length h h' hagree hcl fuel2).1 a ha

/-- A two-node heap (root "R" pointing at leaf "Leaf") for the C6 witness. -/
def exHeap : Heap :=
  [{ id := "main", nombre := "R", descripcion := none, relacion := none,
     tipo := .main, hijos := [1], color := some "#6366f1" },
   { id := "sub-0-0", nombre := "Leaf", descripcion := none, relacion := none,
     tipo := .subconcept, hijos := [], color := some "#c0392b" }]

def exExp6 : Expansion := ⟨"Leaf", [⟨"N", "D"⟩]⟩

/-- The heap produced by the heap-level mutator on `exHeap`. -/
def exHeapAfter : Heap :=
  ((heapAddExpansionsToTree 10 5 exHeap 0 [exExp6]).getD ([], 0)).1

/-- **C6 witness** — after expanding the clone, the caller's tree at the
original root address 0 reads back unchanged. -/
theorem c6_witness : readNode 4 exHeapAfter 0 = readNode 4 exHeap 0 :=
  c6_input_tree_unchanged 10 5 exHeap 0 [exExp6] exHeapAfter 3
    (by unfold HeapWellFormed; decide) (by decide) 4 0 (by decide)

/-- Concrete tree for C10: the root (`main`, with a child) and an
`expanded`-kind node that itself has a child, both of which the mutator
is happy to expand. -/
def exTree10 : ConceptTree :=
  { tema := "T10", profundidad := .avanzado,
    raiz := .mk "main" "R" none none .main
      [.mk "x1" "Dup" (some "dd") none .expanded
        [.mk "x2" "Leaf" none none .example [] (some "#2980b9")]
        (some "#2980b9")]
      (some "#6366f1") }

/-- **C10** — the mutator enforces no eligibility condition: expanding a
concrete tree at the root (kind `main`, already having a child) and at a
node of kind `expanded` that also has a child appends the new
`expanded` children to both targets; filtering to childless
concept/subconcept leaves happens only in the caller. -/
theorem c10_no_eligibility_filter :
    addExpansionsToTree 5 exTree10
        [⟨"R", [⟨"N1", "D1"⟩]⟩, ⟨"Dup", [⟨"N2", "D2"⟩]⟩]
      = { tema := "T10", profundidad := .avanzado,
          raiz := .mk "main" "R" none none .main
            [.mk "x1" "Dup" (some "dd") none .expanded
              [.mk "x2" "Leaf" none none .example [] (some "#2980b9"),
               .mk "expanded-x1-1-0-5" "N2" (some "D2") (some "incluye") .expanded []
                 (some "#2980b9")]
              (some "#2980b9"),
             .mk "expanded-main-0-0-5" "N1" (some "D1") (some "incluye") .expanded []
               (some "#6366f1")]
            (some "#6366f1") } := by
  rfl

end ConceptMap
